import Mathlib

/-!
Verification development for the go-rag-pack repository: a shallow embedding of
the dependency-resolution, source-selection/deduplication, and symbol-level
chunk-extraction pipeline, together with theorems settling the frozen claims.

The embedding follows the Go source:
  - `cmd/go-rag-pack` main (src/unnamed/part_000): `dedupeSources`, the
    build-time selection gate;
  - `internal/chunk/chunk.go`: `Build`, `buildForPackage`, `parseFile`,
    `buildFuncChunk`, `buildGenChunks`, `extractSnippet`, `relativePath`;
  - `internal/discover` (src/unnamed/part_002): `Module` replacement handling
    in `goListModules`, `collectThirdParty`.

Library functions from the Go standard library (`strings`, `path/filepath`)
are modelled with Unix path semantics (`filepath.Separator` is the forward
slash, so `filepath.ToSlash` is the identity on characters other than the
separator).  Strings are modelled at the rune level.
-/

/-! ### Models of Go standard-library string helpers -/

/-- Model of `unicode.IsSpace` restricted to the ASCII whitespace characters
that `strings.TrimSpace` removes (space, tab, newline, vertical tab, form
feed, carriage return). -/
def goIsSpace (c : Char) : Bool :=
  c == ' ' || c == '\t' || c == '\n' || c == '\r' || c.toNat == 11 || c.toNat == 12

/-- Model of Go `strings.TrimSpace`: drop leading and trailing whitespace. -/
def goTrimSpace (s : String) : String :=
  String.mk (((s.toList.dropWhile goIsSpace).reverse.dropWhile goIsSpace).reverse)

/-- Model of Go `strings.ToLower` (ASCII-relevant part). -/
def lowerString (s : String) : String :=
  String.mk (s.toList.map Char.toLower)

/-- Model of Go `strings.Contains` via list infix search. -/
def listContainsSub (l sub : List Char) : Bool :=
  match l with
  | [] => sub.isEmpty
  | _ :: rest => sub.isPrefixOf l || listContainsSub rest sub

/-- Model of Go `strings.Contains` on strings. -/
def goContains (s sub : String) : Bool :=
  listContainsSub s.toList sub.toList

/-- Model of Go `strings.HasPrefix` on strings. -/
def strStartsWith (s t : String) : Bool :=
  t.toList.isPrefixOf s.toList

/-- Model of Go `strings.HasSuffix` on strings. -/
def strEndsWith (s t : String) : Bool :=
  t.toList.reverse.isPrefixOf s.toList.reverse

/-- Split a character list at every separator occurrence (the splitting core
of Go `strings.Split`). -/
def splitCharAux (sep : Char) : List Char → List Char → List (List Char)
  | [], acc => [acc.reverse]
  | c :: rest, acc =>
    if c = sep then acc.reverse :: splitCharAux sep rest []
    else splitCharAux sep rest (c :: acc)

/-- Split a string on the path separator (`strings.Split(s, "/")`). -/
def splitOnSlash (s : String) : List String :=
  (splitCharAux '/' s.toList []).map String.mk

/-! ### Models of Go `path/filepath` (Unix semantics) -/

/-- The Unix path separator, `filepath.Separator`. -/
def goSeparator : Char := '/'

/-- Model of `filepath.ToSlash`: replace the OS separator with a forward
slash.  On Unix the separator already is the forward slash. -/
def goToSlash (p : String) : String :=
  String.mk (p.toList.map (fun c => if c = goSeparator then '/' else c))

/-- One step of Go `filepath.Clean`'s element processing: push a path element
onto the (reversed) output stack. -/
def cleanStep (rooted : Bool) (acc : List String) (seg : String) : List String :=
  if seg = "" || seg = "." then acc
  else if seg = ".." then
    match acc with
    | [] => if rooted then [] else [".."]
    | top :: rest => if top = ".." then ".." :: acc else rest
  else seg :: acc

/-- Model of Go `filepath.Clean` for Unix paths. -/
def goClean (p : String) : String :=
  if p = "" then "."
  else
    let rooted := strStartsWith p "/"
    let out := (splitOnSlash p).foldl (cleanStep rooted) []
    let s := (if rooted then "/" else "") ++ String.intercalate "/" out.reverse
    if s = "" then "." else s

/-- Split a cleaned path into its separator-delimited elements; the empty
string has no elements. -/
def pathSegs (s : String) : List String :=
  if s = "" then [] else splitOnSlash s

/-- Length of the common prefix of two element lists. -/
def commonLen : List String → List String → Nat
  | a :: as, b :: bs => if a = b then commonLen as bs + 1 else 0
  | _, _ => 0

/-- Model of Go `filepath.Rel` for Unix paths: `none` models the error return
(`targpath` cannot be made relative to `basepath`). -/
def goRel (basepath targpath : String) : Option String :=
  let base := goClean basepath
  let targ := goClean targpath
  if targ = base then some "."
  else
    let base := if base = "." then "" else base
    if (strStartsWith base "/") ≠ (strStartsWith targ "/") then none
    else
      let bs := pathSegs base
      let ts := pathSegs targ
      let n := commonLen bs ts
      let bRest := bs.drop n
      let tRest := ts.drop n
      let bStr := String.intercalate "/" bRest
      let tStr := String.intercalate "/" tRest
      if bRest.head? = some ".." then none
      else if bStr = "" then some tStr
      else some (String.intercalate "/" (List.replicate bRest.length "..")
        ++ (if tStr = "" then "" else "/" ++ tStr))

/-- Model of two-argument Go `filepath.Join`. -/
def goJoin (a b : String) : String :=
  if a = "" ∧ b = "" then ""
  else if a = "" then goClean b
  else if b = "" then goClean a
  else goClean (a ++ "/" ++ b)

/-! ### Data model: `PackageSource` (internal/chunk/chunk.go) -/

/-- Model of `SourceKind`, identifying where a package originated (a Go string type). -/
abbrev SourceKind := String

/-- Model of `chunk.SourceProject`. -/
def SourceProject : SourceKind := "project"

/-- Model of `chunk.SourceThirdParty`. -/
def SourceThirdParty : SourceKind := "third-party"

/-- Model of `chunk.SourceStdlib`. -/
def SourceStdlib : SourceKind := "stdlib"

/-- Model of `chunk.PackageSource`: a package that should be chunked. -/
structure PackageSource where
  modulePath : String
  moduleVersion : String
  moduleDir : String
  importPath : String
  dir : String
  kind : SourceKind
deriving DecidableEq, Repr

/-! ### Source deduplication (`dedupeSources` in cmd/go-rag-pack) -/

/-- The dedup key type from `dedupeSources`: `(importPath, dir)`. -/
structure SrcKey where
  importPath : String
  dir : String
deriving DecidableEq, Repr

/-- The key of a package source. -/
def srcKey (s : PackageSource) : SrcKey :=
  ⟨s.importPath, s.dir⟩

/-- The precedence function `order` from `dedupeSources`: project 0,
third-party 1, stdlib 2, anything else 3. -/
def kindOrder (k : SourceKind) : Nat :=
  if k = SourceProject then 0
  else if k = SourceThirdParty then 1
  else if k = SourceStdlib then 2
  else 3

/-- Association-list lookup, modelling a read from a Go map. -/
def assocFind {κ β : Type} [DecidableEq κ] (k : κ) : List (κ × β) → Option β
  | [] => none
  | (k', v) :: rest => if k' = k then some v else assocFind k rest

/-- Association-list write, modelling a Go map assignment: replace the bound
value, or append a fresh binding. -/
def assocSet {κ β : Type} [DecidableEq κ] (k : κ) (v : β) :
    List (κ × β) → List (κ × β)
  | [] => [(k, v)]
  | (k', v') :: rest =>
    if k' = k then (k, v) :: rest else (k', v') :: assocSet k v rest

/-- One iteration of the `dedupeSources` loop over the `seen` map: keep the
existing entry unless the incoming source's kind has strictly smaller
`kindOrder`. -/
def stepSeen (seen : List (SrcKey × PackageSource)) (src : PackageSource) :
    List (SrcKey × PackageSource) :=
  let k := srcKey src
  match assocFind k seen with
  | some existing =>
    if kindOrder src.kind < kindOrder existing.kind then assocSet k src seen else seen
  | none => assocSet k src seen

/-- The total order used to sort dedup keys: `strings.Compare` on import path,
then on directory. -/
def srcKeyLE (a b : SrcKey) : Prop :=
  a.importPath < b.importPath ∨ (a.importPath = b.importPath ∧ a.dir ≤ b.dir)

instance : DecidableRel srcKeyLE := fun a b => by
  unfold srcKeyLE; infer_instance

instance : IsTotal SrcKey srcKeyLE where
  total a b := by
    unfold srcKeyLE
    rcases lt_trichotomy a.importPath b.importPath with h | h | h
    · exact Or.inl (Or.inl h)
    · rcases le_total a.dir b.dir with h2 | h2
      · exact Or.inl (Or.inr ⟨h, h2⟩)
      · exact Or.inr (Or.inr ⟨h.symm, h2⟩)
    · exact Or.inr (Or.inl h)

instance : IsTrans SrcKey srcKeyLE where
  trans a b c hab hbc := by
    unfold srcKeyLE at *
    rcases hab with h1 | ⟨e1, d1⟩
    · rcases hbc with h2 | ⟨e2, _⟩
      · exact Or.inl (h1.trans h2)
      · exact Or.inl (e2 ▸ h1)
    · rcases hbc with h2 | ⟨e2, d2⟩
      · exact Or.inl (e1 ▸ h2)
      · exact Or.inr ⟨e1.trans e2, d1.trans d2⟩

instance : IsAntisymm SrcKey srcKeyLE where
  antisymm a b hab hba := by
    unfold srcKeyLE at *
    rcases hab with h1 | ⟨e1, d1⟩
    · rcases hba with h2 | ⟨e2, _⟩
      · exact absurd (h1.trans h2) (lt_irrefl _)
      · exact absurd h1 (e2 ▸ lt_irrefl _)
    · rcases hba with h2 | ⟨e2, d2⟩
      · exact absurd h2 (e1 ▸ lt_irrefl _)
      · cases a; cases b
        simp only at e1 d1 d2
        simp [e1, le_antisymm d1 d2]

/-- Model of `dedupeSources` from cmd/go-rag-pack: lists of length at most one are
returned unchanged; otherwise duplicates by `(importPath, dir)` are collapsed
preferring project over third-party over stdlib, and the survivors are emitted
in key-sorted order.  The Go map's nondeterministic iteration order is
irrelevant: the key list is sorted (all keys are distinct) before the output
is assembled. -/
def dedupeSources (sources : List PackageSource) : List PackageSource :=
  if sources.length ≤ 1 then sources
  else
    let seen := sources.foldl stepSeen []
    let sortedKeys := List.insertionSort srcKeyLE (seen.map Prod.fst)
    sortedKeys.filterMap (fun k => assocFind k seen)

/-! ### Chunk data model (internal/chunk/chunk.go) -/

/-- Model of `chunk.Metadata`: contextual details on a chunk. -/
structure Metadata where
  path : String
  packageName : String
  importPath : String
  modulePath : String
  moduleVersion : String
  symbol : String
  kind : String
  source : String
deriving DecidableEq, Repr

/-- Model of `chunk.Chunk`: the unit of text emitted for RAG ingestion. -/
structure Chunk where
  id : String
  text : String
  metadata : Metadata
deriving DecidableEq, Repr

/-! ### Go AST model

`go/parser` and `go/ast` are external libraries; a parsed file is modelled by
the data the extractor reads from it: package name, the file doc comment, the
top-level declarations with their byte offsets into the file content, and doc
comments abstracted by the string `(*ast.CommentGroup).Text()` returns
(`none` models a nil comment group). -/

/-- One receiver field: declared names plus the `go/printer` rendering of its
type expression. -/
structure RecvField where
  names : List String
  typ : String
deriving DecidableEq, Repr

/-- The token of a `*ast.GenDecl` (`token.Token.String()` gives the lowercase
keyword). -/
inductive GTok where
  | tconst
  | tvar
  | ttype
  | timport
deriving DecidableEq, Repr

/-- Model of `token.Token.String()` for the `GenDecl` tokens. -/
def gtokString : GTok → String
  | .tconst => "const"
  | .tvar => "var"
  | .ttype => "type"
  | .timport => "import"

/-- An inner specifier of a grouped declaration (`ast.Spec`). -/
inductive Spec where
  | typeSpec (name : String) (doc : Option String) (specPos specEnd : Nat)
  | valueSpec (names : List String) (doc : Option String) (specPos specEnd : Nat)
  | importSpec
deriving DecidableEq, Repr

/-- Model of `*ast.GenDecl`. -/
structure GenDeclData where
  tok : GTok
  doc : Option String
  specs : List Spec
deriving DecidableEq, Repr

/-- Model of `*ast.FuncDecl`, with `declPos`/`declEnd` the offsets of `Pos()`/`End()`
into the file content.  `recv` is `none` for a plain function. -/
structure FuncDeclData where
  name : String
  recv : Option (List RecvField)
  doc : Option String
  declPos : Nat
  declEnd : Nat
deriving DecidableEq, Repr

/-- A top-level declaration (`ast.Decl`); `otherDecl` covers the declaration
forms the extractor's `switch` skips. -/
inductive Decl where
  | funcDecl (d : FuncDeclData)
  | genDecl (d : GenDeclData)
  | otherDecl
deriving DecidableEq, Repr

/-- The parsed form of one file (`*ast.File`). -/
structure GoFile where
  pkgName : String
  doc : Option String
  decls : List Decl
deriving DecidableEq, Repr

/-- A file on disk paired with its parse result. -/
structure ParsedFile where
  content : List Char
  ast : GoFile
deriving DecidableEq, Repr

/-- One directory entry from `os.ReadDir`. -/
structure DirEntry where
  name : String
  isDir : Bool
deriving DecidableEq, Repr

/-- The filesystem-plus-parser oracle the extractor consumes: `readDir`
models `os.ReadDir` (`none` is a read error) and `parse` models
`os.ReadFile` followed by `parser.ParseFile` (`none` is a read or parse
error). -/
structure GoFS where
  readDir : String → Option (List DirEntry)
  parse : String → Option ParsedFile

/-- Errors surfaced by the build pipeline; distinct constructors model the
distinct Go error values. -/
inductive BuildError where
  | noSourcesSelected
  | readDirError (dir : String)
  | fileError (path : String)
deriving DecidableEq, Repr

/-! ### Extractor (internal/chunk/chunk.go) -/

/-- Model of `shouldSkipFile`: filename-based exclusion of test, mock, generated, and
protobuf files. -/
def shouldSkipFile (name : String) : Bool :=
  strEndsWith name "_test.go" || strEndsWith name "_mock.go" ||
  strEndsWith name "_generated.go" || goContains name ".pb.go" ||
  goContains name "_pb2.go"

/-- Model of `commentText`: the trimmed text of a comment group, empty for nil. -/
def commentText : Option String → String
  | none => ""
  | some t => goTrimSpace t

/-- Model of `gatherDoc`: collect the non-empty comment texts and join them with a
newline, trimming the result. -/
def gatherDoc (groups : List (Option String)) : String :=
  let parts := groups.foldr
    (fun g acc => let t := commentText g; if t = "" then acc else t :: acc) []
  goTrimSpace (String.intercalate "\n" parts)

/-- Model of `extractSnippet`: the trimmed byte range `content[startPos:endPos]`, with
the end clamped to the file length (the Go code also clamps a negative start
to zero, which cannot arise for parser-produced offsets). -/
def extractSnippet (content : List Char) (startPos endPos : Nat) : String :=
  let e := if endPos > content.length then content.length else endPos
  goTrimSpace (String.mk ((content.take e).drop startPos))

/-- Model of `formatReceiver`: render receiver fields as `names typ` joined by
commas. -/
def formatReceiver (list : List RecvField) : String :=
  if list.isEmpty then ""
  else String.intercalate ", "
    (list.map (fun f => String.intercalate ", " f.names ++ " " ++ f.typ))

/-- Model of `relativePath`: the slash-normalized path of `path` relative to `root`,
falling back to `path` itself when `root` is empty or `filepath.Rel`
fails. -/
def relativePath (root path : String) : String :=
  if root = "" then path
  else match goRel root path with
    | none => path
    | some rel => goToSlash rel

/-- Model of `buildFuncChunk`: one chunk per function or method declaration.  The id
is derived from the relative path and the declaration name only; the receiver
appears in the symbol but not in the id. -/
def buildFuncChunk (src : PackageSource) (path pkg : String) (content : List Char)
    (d : FuncDeclData) : Chunk :=
  let symbol :=
    match d.recv with
    | some fields => "func (" ++ formatReceiver fields ++ ") " ++ d.name
    | none => "func " ++ d.name
  let text := extractSnippet content d.declPos d.declEnd
  let doc := commentText d.doc
  let body := (if doc ≠ "" then goTrimSpace doc ++ "\n\n" else "") ++ text
  { id := path ++ ":" ++ d.name
    text := body
    metadata :=
      { path := path, packageName := pkg, importPath := src.importPath
        modulePath := src.modulePath, moduleVersion := src.moduleVersion
        symbol := symbol, kind := "function", source := src.kind } }

/-- The body of the `buildGenChunks` loop for one specifier. -/
def genSpecChunks (src : PackageSource) (path pkg : String) (content : List Char)
    (tok : GTok) (gdoc : Option String) : Spec → List Chunk
  | .typeSpec name sdoc p e =>
    let snippet := extractSnippet content p e
    let doc := gatherDoc [gdoc, sdoc]
    let text := (if doc ≠ "" then doc ++ "\n\n" else "") ++ snippet
    [{ id := path ++ ":type:" ++ name
       text := text
       metadata :=
         { path := path, packageName := pkg, importPath := src.importPath
           modulePath := src.modulePath, moduleVersion := src.moduleVersion
           symbol := "type " ++ name, kind := "type", source := src.kind }}]
  | .valueSpec names sdoc p e =>
    if names.isEmpty then []
    else
      let snippet := extractSnippet content p e
      let doc := gatherDoc [gdoc, sdoc]
      let text := (if doc ≠ "" then doc ++ "\n\n" else "") ++ snippet
      let low := lowerString (gtokString tok)
      [{ id := path ++ ":" ++ low ++ ":" ++ String.intercalate "," names
         text := text
         metadata :=
           { path := path, packageName := pkg, importPath := src.importPath
             modulePath := src.modulePath, moduleVersion := src.moduleVersion
             symbol := low ++ " " ++ String.intercalate ", " names
             kind := low, source := src.kind }}]
  | .importSpec => []

/-- Model of `buildGenChunks`: one chunk per type specifier and per non-empty
value/constant specifier of a grouped declaration. -/
def buildGenChunks (src : PackageSource) (path pkg : String) (content : List Char)
    (decl : GenDeclData) : List Chunk :=
  if decl.specs.isEmpty then []
  else decl.specs.flatMap (genSpecChunks src path pkg content decl.tok decl.doc)

/-- The pure part of `parseFile` after a successful parse: the optional
file-doc chunk followed by the declaration chunks in source order. -/
def parseFileChunks (src : PackageSource) (filePath : String) (pf : ParsedFile) :
    List Chunk :=
  let fileRel := relativePath src.moduleDir filePath
  let file := pf.ast
  let docChunks :=
    let doc := commentText file.doc
    if doc ≠ "" then
      if goTrimSpace doc ≠ "" then
        [{ id := fileRel ++ ":" ++ file.pkgName ++ ":file-doc"
           text := goTrimSpace doc
           metadata :=
             { path := fileRel, packageName := file.pkgName
               importPath := src.importPath, modulePath := src.modulePath
               moduleVersion := src.moduleVersion, symbol := ""
               kind := "file-doc", source := src.kind }}]
      else []
    else []
  docChunks ++ file.decls.flatMap (fun d =>
    match d with
    | .funcDecl fd => [buildFuncChunk src fileRel file.pkgName pf.content fd]
    | .genDecl gd => buildGenChunks src fileRel file.pkgName pf.content gd
    | .otherDecl => [])

/-- Model of `buildForPackage`: list the package directory, keep eligible `.go` files,
sort them by name, and parse each in order; any read or parse failure aborts
with a contextualized error. -/
def buildForPackage (fs : GoFS) (src : PackageSource) :
    Except BuildError (List Chunk) :=
  match fs.readDir src.dir with
  | none => .error (.readDirError src.dir)
  | some entries =>
    let goFiles := (entries.filter
      (fun en => !en.isDir && strEndsWith en.name ".go" && !shouldSkipFile en.name)).map
      (fun en => goJoin src.dir en.name)
    let sorted := List.insertionSort (fun a b : String => a ≤ b) goFiles
    sorted.foldlM
      (fun acc file =>
        match fs.parse file with
        | none => .error (.fileError file)
        | some pf => .ok (acc ++ parseFileChunks src file pf))
      []

/-- The comparison key of the final chunk sort:
`(modulePath, relativePath, id)`. -/
def chunkLE (a b : Chunk) : Prop :=
  a.metadata.modulePath < b.metadata.modulePath ∨
    (a.metadata.modulePath = b.metadata.modulePath ∧
      (a.metadata.path < b.metadata.path ∨
        (a.metadata.path = b.metadata.path ∧ a.id ≤ b.id)))

instance : DecidableRel chunkLE := fun a b => by
  unfold chunkLE; infer_instance

instance : IsTotal Chunk chunkLE where
  total a b := by
    unfold chunkLE
    rcases lt_trichotomy a.metadata.modulePath b.metadata.modulePath with h | h | h
    · exact Or.inl (Or.inl h)
    · rcases lt_trichotomy a.metadata.path b.metadata.path with h2 | h2 | h2
      · exact Or.inl (Or.inr ⟨h, Or.inl h2⟩)
      · rcases le_total a.id b.id with h3 | h3
        · exact Or.inl (Or.inr ⟨h, Or.inr ⟨h2, h3⟩⟩)
        · exact Or.inr (Or.inr ⟨h.symm, Or.inr ⟨h2.symm, h3⟩⟩)
      · exact Or.inr (Or.inr ⟨h.symm, Or.inl h2⟩)
    · exact Or.inr (Or.inl h)

instance : IsTrans Chunk chunkLE where
  trans a b c hab hbc := by
    unfold chunkLE at *
    rcases hab with h1 | ⟨e1, h1⟩
    · rcases hbc with h2 | ⟨e2, _⟩
      · exact Or.inl (h1.trans h2)
      · exact Or.inl (e2 ▸ h1)
    · rcases hbc with h2 | ⟨e2, h2⟩
      · exact Or.inl (e1 ▸ h2)
      · refine Or.inr ⟨e1.trans e2, ?_⟩
        rcases h1 with h1 | ⟨p1, i1⟩
        · rcases h2 with h2 | ⟨p2, _⟩
          · exact Or.inl (h1.trans h2)
          · exact Or.inl (p2 ▸ h1)
        · rcases h2 with h2 | ⟨p2, i2⟩
          · exact Or.inl (p1 ▸ h2)
          · exact Or.inr ⟨p1.trans p2, i1.trans i2⟩

/-- Model of `chunk.Build`: extract every source in order, propagating the first
error, then sort the combined collection by
`(modulePath, relativePath, id)`.  Go's `sort.Slice` leaves the relative
order of equal keys unspecified (but deterministic); the model fixes one
sorted permutation. -/
def Build (fs : GoFS) (sources : List PackageSource) :
    Except BuildError (List Chunk) :=
  (sources.foldlM
      (fun acc src => (buildForPackage fs src).map (fun cs => acc ++ cs)) []).map
    (List.insertionSort chunkLE)

/-- The `runBuild` gate around extraction (cmd/go-rag-pack): an empty
selection is a hard error raised before the extractor runs; otherwise the
deduplicated sources are handed to `chunk.Build`. -/
def runBuildGate (fs : GoFS) (sources : List PackageSource) :
    Except BuildError (List Chunk) :=
  if sources.isEmpty then .error .noSourcesSelected
  else Build fs (dedupeSources sources)

/-! ### Dependency resolution model (internal/discover) -/

/-- Model of `discover.Module`: a Go module known to the project.  `replace` mirrors
the `Replace *Module` back-pointer. -/
inductive GoModule where
  | mk (path version dir gomod : String) (main : Bool)
      (replace : Option GoModule) (indirect : Bool)

/-- The `Path` field. -/
def GoModule.path : GoModule → String
  | .mk p _ _ _ _ _ _ => p

/-- The `Version` field. -/
def GoModule.version : GoModule → String
  | .mk _ v _ _ _ _ _ => v

/-- The `Dir` field. -/
def GoModule.dir : GoModule → String
  | .mk _ _ d _ _ _ _ => d

/-- The `Replace` field. -/
def GoModule.replace : GoModule → Option GoModule
  | .mk _ _ _ _ _ r _ => r

/-- Overwrite the `Dir` field. -/
def GoModule.withDir (m : GoModule) (d : String) : GoModule :=
  match m with
  | .mk p v _ g mn r i => .mk p v d g mn r i

/-- The per-module fixup inside `goListModules`: when a decoded module
carries a replacement whose directory is non-empty, overwrite the module's
own directory with the replacement's. -/
def applyReplaceDir (m : GoModule) : GoModule :=
  match m.replace with
  | some rep => if rep.dir ≠ "" then m.withDir rep.dir else m
  | none => m

/-- The decode loop of `goListModules`, applied to the already-decoded
records: every module gets the replacement-directory fixup. -/
def resolveModules (decoded : List GoModule) : List GoModule :=
  decoded.map applyReplaceDir

/-- Model of `discover.Package`: a Go package, either in the project or a
dependency.  `module` mirrors the `Module *Module` back-pointer (`none`
models a nil pointer, i.e. missing module attribution). -/
structure GoPackage where
  importPath : String
  dir : String
  name : String
  module : Option GoModule
  standard : Bool
  depOnly : Bool

/-- Model of `discover.ModuleUsage`: a module paired with the packages that
the project imports from it. -/
structure ModuleUsage where
  module : GoModule
  packages : List GoPackage

/-- The entry type local to `collectThirdParty`: a module plus a map from
an import path to a package, modelled as an association list. -/
structure TPEntry where
  module : GoModule
  packages : List (String × GoPackage)

/-- Import-path order used to sort the packages of one usage. -/
def pkgLE (a b : GoPackage) : Prop :=
  a.importPath ≤ b.importPath

instance : DecidableRel pkgLE := fun a b => by
  unfold pkgLE; infer_instance

/-- Plain string order used to sort module paths (`sort.Strings`). -/
def strLE (a b : String) : Prop := a ≤ b

instance : DecidableRel strLE := fun a b => by
  unfold strLE; infer_instance

instance : IsTotal String strLE where
  total a b := le_total a b

instance : IsTrans String strLE where
  trans _ _ _ hab hbc := le_trans hab hbc

/-- The local `mod` computation in the `collectThirdParty` loop: a package
module with an empty directory is replaced by the previously decoded module
of the same path, when one exists. -/
def tpMod (moduleByPath : List (String × GoModule)) (pm : GoModule) :
    GoModule :=
  if pm.dir = "" then
    match assocFind pm.path moduleByPath with
    | some known => known
    | none => pm
  else pm

/-- One iteration of the grouping loop in `collectThirdParty`: standard
packages, packages with nil module attribution, and main-module packages are
skipped; otherwise the package joins (or creates) its module's entry, with
the module's directory recovered from the decoded module list when empty. -/
def tpStep (moduleByPath : List (String × GoModule)) (mainPath : String)
    (third : List (String × TPEntry)) (p : GoPackage) :
    List (String × TPEntry) :=
  if p.standard then third
  else
    match p.module with
    | none => third
    | some pm =>
      if pm.path = mainPath then third
      else
        let mod := tpMod moduleByPath pm
        match assocFind mod.path third with
        | some ent =>
          assocSet mod.path
            { ent with packages := assocSet p.importPath p ent.packages } third
        | none => third ++ [(mod.path, ⟨mod, [(p.importPath, p)]⟩)]

/-- Model of `collectThirdParty`: group the dependency closure's non-standard,
non-main-module packages by owning module, then emit usages sorted by module
path with each usage's packages sorted by import path.  The Go map's
iteration order is irrelevant because both levels are keyed by distinct
strings and sorted. -/
def collectThirdParty (depPkgs : List GoPackage)
    (moduleByPath : List (String × GoModule)) (mainPath : String) :
    List ModuleUsage :=
  let third := depPkgs.foldl (tpStep moduleByPath mainPath) []
  let paths := List.insertionSort strLE (third.map Prod.fst)
  paths.filterMap (fun path =>
    (assocFind path third).map (fun ent =>
      { module := ent.module
        packages := List.insertionSort pkgLE (ent.packages.map Prod.snd) }))

/-! ### Lemmas: association lists and the dedup fold -/

theorem assocFind_assocSet_self {κ β : Type} [DecidableEq κ] (k : κ) (v : β)
    (l : List (κ × β)) : assocFind k (assocSet k v l) = some v := by
  induction l with
  | nil => simp [assocFind, assocSet]
  | cons hd tl ih =>
    obtain ⟨k', v'⟩ := hd
    by_cases h : k' = k
    · simp [assocFind, assocSet, h]
    · simp [assocFind, assocSet, h, ih]

theorem assocFind_assocSet_ne {κ β : Type} [DecidableEq κ] {k k' : κ} (v : β)
    (l : List (κ × β)) (h : k' ≠ k) :
    assocFind k (assocSet k' v l) = assocFind k l := by
  induction l with
  | nil => simp [assocFind, assocSet, h]
  | cons hd tl ih =>
    obtain ⟨k₀, v₀⟩ := hd
    by_cases h0 : k₀ = k'
    · subst h0
      simp [assocFind, assocSet, h]
    · simp only [assocSet, if_neg h0]
      by_cases h1 : k₀ = k
      · simp [assocFind, h1]
      · simp [assocFind, h1, ih]

theorem assocFind_eq_none_iff {κ β : Type} [DecidableEq κ] (k : κ)
    (l : List (κ × β)) : assocFind k l = none ↔ k ∉ l.map Prod.fst := by
  induction l with
  | nil => simp [assocFind]
  | cons hd tl ih =>
    obtain ⟨k', v'⟩ := hd
    by_cases h : k' = k
    · simp [assocFind, h]
    · simp [assocFind, h, ih, Ne.symm h]

theorem assocFind_mem {κ β : Type} [DecidableEq κ] {k : κ} {v : β}
    {l : List (κ × β)} (h : assocFind k l = some v) : (k, v) ∈ l := by
  induction l with
  | nil => simp [assocFind] at h
  | cons hd tl ih =>
    obtain ⟨k', v'⟩ := hd
    by_cases h0 : k' = k
    · subst h0
      simp [assocFind] at h
      rw [← h]
      exact List.mem_cons_self _ _
    · simp only [assocFind, if_neg h0] at h
      exact List.mem_cons_of_mem _ (ih h)

theorem assocSet_of_not_mem {κ β : Type} [DecidableEq κ] {k : κ} (v : β)
    {l : List (κ × β)} (h : k ∉ l.map Prod.fst) :
    assocSet k v l = l ++ [(k, v)] := by
  induction l with
  | nil => simp [assocSet]
  | cons hd tl ih =>
    obtain ⟨k', v'⟩ := hd
    simp only [List.map_cons, List.mem_cons, not_or] at h
    simp [assocSet, Ne.symm h.1, ih h.2]

theorem map_fst_assocSet_of_mem {κ β : Type} [DecidableEq κ] {k : κ} (v : β)
    {l : List (κ × β)} (h : k ∈ l.map Prod.fst) :
    (assocSet k v l).map Prod.fst = l.map Prod.fst := by
  induction l with
  | nil => simp at h
  | cons hd tl ih =>
    obtain ⟨k', v'⟩ := hd
    by_cases h0 : k' = k
    · simp [assocSet, h0]
    · simp only [List.map_cons, List.mem_cons, Ne.symm h0, false_or] at h
      simp [assocSet, h0, ih h]

theorem mem_assocSet {κ β : Type} [DecidableEq κ] {kv : κ × β} {k : κ} {v : β}
    {l : List (κ × β)} (h : kv ∈ assocSet k v l) : kv = (k, v) ∨ kv ∈ l := by
  induction l with
  | nil => simpa [assocSet] using h
  | cons hd tl ih =>
    obtain ⟨k', v'⟩ := hd
    by_cases h0 : k' = k
    · simp only [assocSet, if_pos h0, List.mem_cons] at h
      rcases h with h | h
      · exact Or.inl h
      · exact Or.inr (List.mem_cons_of_mem _ h)
    · simp only [assocSet, if_neg h0, List.mem_cons] at h
      rcases h with h | h
      · exact Or.inr (h ▸ List.mem_cons_self _ _)
      · rcases ih h with h | h
        · exact Or.inl h
        · exact Or.inr (List.mem_cons_of_mem _ h)

theorem map_fst_stepSeen (seen : List (SrcKey × PackageSource))
    (src : PackageSource) :
    (stepSeen seen src).map Prod.fst =
      if srcKey src ∈ seen.map Prod.fst then seen.map Prod.fst
      else seen.map Prod.fst ++ [srcKey src] := by
  unfold stepSeen
  cases hf : assocFind (srcKey src) seen with
  | none =>
    have hnm := (assocFind_eq_none_iff (srcKey src) seen).mp hf
    simp only [hf]
    simp [assocSet_of_not_mem _ hnm, hnm]
  | some existing =>
    have hm : srcKey src ∈ seen.map Prod.fst := by
      exact List.mem_map_of_mem Prod.fst (assocFind_mem hf)
    simp only [hf]
    by_cases hord : kindOrder src.kind < kindOrder existing.kind
    · simp [hord, map_fst_assocSet_of_mem _ hm, hm]
    · simp [hord, hm]

theorem assocFind_stepSeen_ne {seen : List (SrcKey × PackageSource)}
    {src : PackageSource} {k : SrcKey} (h : srcKey src ≠ k) :
    assocFind k (stepSeen seen src) = assocFind k seen := by
  unfold stepSeen
  cases hf : assocFind (srcKey src) seen with
  | none =>
    simp only [hf]
    exact assocFind_assocSet_ne _ _ h
  | some existing =>
    simp only [hf]
    by_cases hord : kindOrder src.kind < kindOrder existing.kind
    · simpa [hord] using assocFind_assocSet_ne _ _ h
    · simp [hord]

/-- One step of the per-key precedence choice implicit in `dedupeSources`:
an incoming duplicate replaces the current survivor only when its kind has
strictly smaller `kindOrder`. -/
def pickStep (acc : Option PackageSource) (x : PackageSource) :
    Option PackageSource :=
  match acc with
  | none => some x
  | some e => some (if kindOrder x.kind < kindOrder e.kind then x else e)

/-- Fold `pickStep` over a list of duplicates. -/
def pickFold (acc : Option PackageSource) (l : List PackageSource) :
    Option PackageSource :=
  l.foldl pickStep acc

theorem assocFind_stepSeen_self (seen : List (SrcKey × PackageSource))
    (x : PackageSource) :
    assocFind (srcKey x) (stepSeen seen x) =
      pickStep (assocFind (srcKey x) seen) x := by
  unfold stepSeen
  cases hf : assocFind (srcKey x) seen with
  | none =>
    simp only [hf, pickStep]
    exact assocFind_assocSet_self _ _ _
  | some e =>
    simp only [hf, pickStep]
    by_cases hord : kindOrder x.kind < kindOrder e.kind
    · simp only [if_pos hord]
      exact assocFind_assocSet_self _ _ _
    · simp only [if_neg hord]
      exact hf

theorem pickFold_cons (acc : Option PackageSource) (x : PackageSource)
    (l : List PackageSource) :
    pickFold acc (x :: l) = pickFold (pickStep acc x) l := rfl

theorem assocFind_foldl_stepSeen (l : List PackageSource)
    (seen : List (SrcKey × PackageSource)) (k : SrcKey) :
    assocFind k (l.foldl stepSeen seen) =
      pickFold (assocFind k seen) (l.filter (fun s => decide (srcKey s = k))) := by
  induction l generalizing seen with
  | nil => simp [pickFold]
  | cons x xs ih =>
    by_cases hk : srcKey x = k
    · subst hk
      have hfilter :
          List.filter (fun s => decide (srcKey s = srcKey x)) (x :: xs) =
            x :: List.filter (fun s => decide (srcKey s = srcKey x)) xs := by
        simp [List.filter_cons]
      rw [List.foldl_cons, ih, assocFind_stepSeen_self, hfilter, pickFold_cons]
    · have hfilter :
          List.filter (fun s => decide (srcKey s = k)) (x :: xs) =
            List.filter (fun s => decide (srcKey s = k)) xs := by
        simp [List.filter_cons, hk]
      rw [List.foldl_cons, ih, assocFind_stepSeen_ne hk, hfilter]

theorem pickFold_some_min {l : List PackageSource} {e m : PackageSource}
    (h : pickFold (some e) l = some m) :
    (m = e ∨ m ∈ l) ∧ kindOrder m.kind ≤ kindOrder e.kind ∧
      ∀ x ∈ l, kindOrder m.kind ≤ kindOrder x.kind := by
  induction l generalizing e with
  | nil =>
    simp only [pickFold, List.foldl_nil, Option.some.injEq] at h
    exact ⟨Or.inl h.symm, h ▸ le_refl _, by simp⟩
  | cons x xs ih =>
    simp only [pickFold, List.foldl_cons, pickStep] at h
    by_cases hord : kindOrder x.kind < kindOrder e.kind
    · rw [if_pos hord] at h
      obtain ⟨hm, hle, hall⟩ := ih h
      refine ⟨?_, ?_, ?_⟩
      · rcases hm with hm | hm
        · exact Or.inr (hm ▸ List.mem_cons_self _ _)
        · exact Or.inr (List.mem_cons_of_mem _ hm)
      · exact hle.trans (le_of_lt hord)
      · intro y hy
        rcases List.mem_cons.mp hy with hy | hy
        · exact hy ▸ hle
        · exact hall y hy
    · rw [if_neg hord] at h
      obtain ⟨hm, hle, hall⟩ := ih h
      refine ⟨?_, hle, ?_⟩
      · rcases hm with hm | hm
        · exact Or.inl hm
        · exact Or.inr (List.mem_cons_of_mem _ hm)
      · intro y hy
        rcases List.mem_cons.mp hy with hy | hy
        · exact hy ▸ (hle.trans (le_of_not_lt hord))
        · exact hall y hy

theorem pickFold_some_ne_none (l : List PackageSource) (e : PackageSource) :
    pickFold (some e) l ≠ none := by
  induction l generalizing e with
  | nil => simp [pickFold]
  | cons x xs ih =>
    simp only [pickFold, List.foldl_cons, pickStep]
    by_cases hord : kindOrder x.kind < kindOrder e.kind
    · rw [if_pos hord]; exact ih _
    · rw [if_neg hord]; exact ih _

theorem pickFold_nil_some {l : List PackageSource} {m : PackageSource}
    (h : pickFold none l = some m) :
    m ∈ l ∧ ∀ x ∈ l, kindOrder m.kind ≤ kindOrder x.kind := by
  cases l with
  | nil => simp [pickFold] at h
  | cons x xs =>
    simp only [pickFold, List.foldl_cons, pickStep] at h
    obtain ⟨hm, hle, hall⟩ := pickFold_some_min h
    refine ⟨?_, ?_⟩
    · rcases hm with hm | hm
      · exact hm ▸ List.mem_cons_self _ _
      · exact List.mem_cons_of_mem _ hm
    · intro y hy
      rcases List.mem_cons.mp hy with hy | hy
      · exact hy ▸ hle
      · exact hall y hy

theorem pickFold_none_of_ne_nil {l : List PackageSource} (h : l ≠ []) :
    pickFold none l ≠ none := by
  cases l with
  | nil => exact absurd rfl h
  | cons x xs =>
    simp only [pickFold, List.foldl_cons, pickStep]
    exact pickFold_some_ne_none _ _

theorem mem_map_fst_foldl_stepSeen (l : List PackageSource)
    (seen : List (SrcKey × PackageSource)) (k : SrcKey) :
    k ∈ (l.foldl stepSeen seen).map Prod.fst ↔
      k ∈ seen.map Prod.fst ∨ k ∈ l.map srcKey := by
  induction l generalizing seen with
  | nil => simp
  | cons x xs ih =>
    simp only [List.foldl_cons, ih, map_fst_stepSeen]
    by_cases hm : srcKey x ∈ seen.map Prod.fst
    · simp only [if_pos hm, List.map_cons, List.mem_cons]
      constructor
      · rintro (h | h)
        · exact Or.inl h
        · exact Or.inr (Or.inr h)
      · rintro (h | h | h)
        · exact Or.inl h
        · exact Or.inl (h ▸ hm)
        · exact Or.inr h
    · simp only [if_neg hm, List.mem_append, List.map_cons, List.mem_cons]
      aesop

theorem nodup_map_fst_foldl_stepSeen (l : List PackageSource)
    (seen : List (SrcKey × PackageSource))
    (h : (seen.map Prod.fst).Nodup) :
    ((l.foldl stepSeen seen).map Prod.fst).Nodup := by
  induction l generalizing seen with
  | nil => exact h
  | cons x xs ih =>
    simp only [List.foldl_cons]
    refine ih _ ?_
    rw [map_fst_stepSeen]
    by_cases hm : srcKey x ∈ seen.map Prod.fst
    · simpa [hm] using h
    · simp only [if_neg hm]
      exact List.Nodup.append h (List.nodup_singleton _) (by simpa using hm)

theorem keyed_foldl_stepSeen (l : List PackageSource)
    (seen : List (SrcKey × PackageSource))
    (h : ∀ kv ∈ seen, srcKey kv.2 = kv.1) :
    ∀ kv ∈ l.foldl stepSeen seen, srcKey kv.2 = kv.1 := by
  induction l generalizing seen with
  | nil => exact h
  | cons x xs ih =>
    simp only [List.foldl_cons]
    refine ih _ ?_
    intro kv hkv
    unfold stepSeen at hkv
    revert hkv
    cases hf : assocFind (srcKey x) seen with
    | none =>
      simp only [hf]
      intro hkv
      rcases mem_assocSet hkv with hkv | hkv
      · simp [hkv]
      · exact h kv hkv
    | some e =>
      simp only [hf]
      by_cases hord : kindOrder x.kind < kindOrder e.kind
      · rw [if_pos hord]
        intro hkv
        rcases mem_assocSet hkv with hkv | hkv
        · simp [hkv]
        · exact h kv hkv
      · rw [if_neg hord]
        exact h kv

theorem kindOrder_eq_zero_iff (k : SourceKind) :
    kindOrder k = 0 ↔ k = SourceProject := by
  unfold kindOrder
  split_ifs <;> simp_all [SourceProject, SourceThirdParty, SourceStdlib]

theorem kindOrder_eq_one_iff (k : SourceKind) :
    kindOrder k = 1 ↔ k = SourceThirdParty := by
  unfold kindOrder
  split_ifs <;> simp_all [SourceProject, SourceThirdParty, SourceStdlib]

theorem kindOrder_eq_two_iff (k : SourceKind) :
    kindOrder k = 2 ↔ k = SourceStdlib := by
  unfold kindOrder
  split_ifs <;> simp_all [SourceProject, SourceThirdParty, SourceStdlib]

/-- The sublist of `sources` sharing the dedup key `k`. -/
def keyGroup (sources : List PackageSource) (k : SrcKey) : List PackageSource :=
  sources.filter (fun s => decide (srcKey s = k))

theorem filter_filterMap_assocFind_nil
    {seen : List (SrcKey × PackageSource)}
    (hkeyed : ∀ kv ∈ seen, srcKey kv.2 = kv.1)
    {ks : List SrcKey} {k : SrcKey} (hk : k ∉ ks) :
    (ks.filterMap (fun k' => assocFind k' seen)).filter
      (fun s => decide (srcKey s = k)) = [] := by
  rw [List.filter_eq_nil_iff]
  intro s hs
  obtain ⟨k', hk', hfind⟩ := List.mem_filterMap.mp hs
  have hkey : srcKey s = k' := hkeyed _ (assocFind_mem hfind)
  simp only [decide_eq_true_eq, hkey]
  intro h
  exact hk (h ▸ hk')

theorem filter_filterMap_assocFind
    {seen : List (SrcKey × PackageSource)}
    (hkeyed : ∀ kv ∈ seen, srcKey kv.2 = kv.1) :
    ∀ {ks : List SrcKey}, ks.Nodup → ∀ {k : SrcKey}, k ∈ ks →
      ∀ {v : PackageSource}, assocFind k seen = some v →
      (ks.filterMap (fun k' => assocFind k' seen)).filter
        (fun s => decide (srcKey s = k)) = [v] := by
  intro ks
  induction ks with
  | nil => intro _ k hk; simp at hk
  | cons k0 rest ih =>
    intro hnd k hk v hv
    rcases List.mem_cons.mp hk with hk0 | hkrest
    · subst hk0
      have hk0nr : k ∉ rest := (List.nodup_cons.mp hnd).1
      rw [List.filterMap_cons, hv]
      have hkey : srcKey v = k := hkeyed _ (assocFind_mem hv)
      rw [List.filter_cons]
      have hcond : (decide (srcKey v = k)) = true := by simp [hkey]
      rw [hcond, if_pos rfl, filter_filterMap_assocFind_nil hkeyed hk0nr]
    · have hne : k0 ≠ k := by
        rintro rfl
        exact (List.nodup_cons.mp hnd).1 hkrest
      rw [List.filterMap_cons]
      cases hf0 : assocFind k0 seen with
      | none => exact ih (List.nodup_cons.mp hnd).2 hkrest hv
      | some v0 =>
        have hkey0 : srcKey v0 = k0 := hkeyed _ (assocFind_mem hf0)
        simp only [List.filter_cons, hkey0]
        rw [if_neg (by simpa using hne)]
        exact ih (List.nodup_cons.mp hnd).2 hkrest hv

/-- C1.  In the deduplicated output there is exactly one source per
duplicated `(importPath, dir)` key, it is one of the duplicates, its
`kindOrder` is minimal among them, and consequently its kind is the
highest-precedence kind present (`project` over `third-party` over
`stdlib`). -/
theorem dedupe_keeps_highest_precedence (sources : List PackageSource)
    (k : SrcKey) (h2 : 2 ≤ (keyGroup sources k).length) :
    ∃ m, (dedupeSources sources).filter (fun s => decide (srcKey s = k)) = [m] ∧
      m ∈ keyGroup sources k ∧
      (∀ x ∈ keyGroup sources k, kindOrder m.kind ≤ kindOrder x.kind) ∧
      ((∃ x ∈ keyGroup sources k, x.kind = SourceProject) →
        m.kind = SourceProject) ∧
      ((¬∃ x ∈ keyGroup sources k, x.kind = SourceProject) →
        (∃ x ∈ keyGroup sources k, x.kind = SourceThirdParty) →
        m.kind = SourceThirdParty) ∧
      ((¬∃ x ∈ keyGroup sources k, x.kind = SourceProject) →
        (¬∃ x ∈ keyGroup sources k, x.kind = SourceThirdParty) →
        (∃ x ∈ keyGroup sources k, x.kind = SourceStdlib) →
        m.kind = SourceStdlib) := by
  have hgrouplen : (keyGroup sources k).length ≤ sources.length :=
    List.length_filter_le _ _
  have hlen : ¬sources.length ≤ 1 := by omega
  have hgroupne : keyGroup sources k ≠ [] := by
    intro h
    rw [h] at h2
    simp at h2
  have hkeyed : ∀ kv ∈ sources.foldl stepSeen [], srcKey kv.2 = kv.1 :=
    keyed_foldl_stepSeen sources [] (by simp)
  have hfind : assocFind k (sources.foldl stepSeen []) =
      pickFold none (keyGroup sources k) := by
    simpa [keyGroup] using assocFind_foldl_stepSeen sources [] k
  obtain ⟨v, hv⟩ : ∃ v, pickFold none (keyGroup sources k) = some v := by
    cases hp : pickFold none (keyGroup sources k) with
    | none => exact absurd hp (pickFold_none_of_ne_nil hgroupne)
    | some v => exact ⟨v, rfl⟩
  obtain ⟨hmem, hmin⟩ := pickFold_nil_some hv
  have hvfind : assocFind k (sources.foldl stepSeen []) = some v := hfind ▸ hv
  have hknd : ((sources.foldl stepSeen []).map Prod.fst).Nodup :=
    nodup_map_fst_foldl_stepSeen sources [] (by simp)
  have hkmem : k ∈ (sources.foldl stepSeen []).map Prod.fst := by
    rw [mem_map_fst_foldl_stepSeen]
    right
    obtain ⟨s, hs⟩ := List.exists_mem_of_ne_nil _ hgroupne
    have := List.of_mem_filter hs
    have hsk : srcKey s = k := by simpa using this
    exact hsk ▸ List.mem_map_of_mem srcKey (List.mem_of_mem_filter hs)
  have hsortnd :
      (List.insertionSort srcKeyLE ((sources.foldl stepSeen []).map Prod.fst)).Nodup :=
    (List.perm_insertionSort srcKeyLE _).nodup_iff.mpr hknd
  have hsortmem :
      k ∈ List.insertionSort srcKeyLE ((sources.foldl stepSeen []).map Prod.fst) :=
    (List.mem_insertionSort srcKeyLE).mpr hkmem
  refine ⟨v, ?_, hmem, hmin, ?_, ?_, ?_⟩
  · unfold dedupeSources
    rw [if_neg hlen]
    exact filter_filterMap_assocFind hkeyed hsortnd hsortmem hvfind
  · rintro ⟨x, hx, hxk⟩
    have h0 : kindOrder x.kind = 0 := by rw [hxk]; decide
    have : kindOrder v.kind = 0 := Nat.le_zero.mp (h0 ▸ hmin x hx)
    exact (kindOrder_eq_zero_iff _).mp this
  · intro hnop
    rintro ⟨x, hx, hxk⟩
    have h1 : kindOrder x.kind = 1 := by rw [hxk]; decide
    have hle : kindOrder v.kind ≤ 1 := h1 ▸ hmin x hx
    have hne0 : kindOrder v.kind ≠ 0 := by
      intro h0
      exact hnop ⟨v, hmem, (kindOrder_eq_zero_iff _).mp h0⟩
    have : kindOrder v.kind = 1 := by omega
    exact (kindOrder_eq_one_iff _).mp this
  · intro hnop hnot
    rintro ⟨x, hx, hxk⟩
    have h2k : kindOrder x.kind = 2 := by rw [hxk]; decide
    have hle : kindOrder v.kind ≤ 2 := h2k ▸ hmin x hx
    have hne0 : kindOrder v.kind ≠ 0 := by
      intro h0
      exact hnop ⟨v, hmem, (kindOrder_eq_zero_iff _).mp h0⟩
    have hne1 : kindOrder v.kind ≠ 1 := by
      intro h1
      exact hnot ⟨v, hmem, (kindOrder_eq_one_iff _).mp h1⟩
    have : kindOrder v.kind = 2 := by omega
    exact (kindOrder_eq_two_iff _).mp this

/-- Concrete duplicate source (stdlib kind) for witnesses. -/
def srcDupA : PackageSource :=
  ⟨"std", "", "/goroot/src", "p", "d", SourceStdlib⟩

/-- Concrete duplicate source (project kind) for witnesses. -/
def srcDupB : PackageSource :=
  ⟨"m", "v1", "/proj", "p", "d", SourceProject⟩

/-- The shared dedup key of `srcDupA` and `srcDupB`. -/
def dupKey : SrcKey := ⟨"p", "d"⟩

/-- Witness for C1 at a concrete two-element duplicate list: the project
source survives. -/
theorem dedupe_keeps_highest_precedence_witness :
    2 ≤ (keyGroup [srcDupA, srcDupB] dupKey).length ∧
    ∃ m, (dedupeSources [srcDupA, srcDupB]).filter
        (fun s => decide (srcKey s = dupKey)) = [m] ∧
      m ∈ keyGroup [srcDupA, srcDupB] dupKey ∧
      (∀ x ∈ keyGroup [srcDupA, srcDupB] dupKey,
        kindOrder m.kind ≤ kindOrder x.kind) ∧
      ((∃ x ∈ keyGroup [srcDupA, srcDupB] dupKey, x.kind = SourceProject) →
        m.kind = SourceProject) ∧
      ((¬∃ x ∈ keyGroup [srcDupA, srcDupB] dupKey, x.kind = SourceProject) →
        (∃ x ∈ keyGroup [srcDupA, srcDupB] dupKey, x.kind = SourceThirdParty) →
        m.kind = SourceThirdParty) ∧
      ((¬∃ x ∈ keyGroup [srcDupA, srcDupB] dupKey, x.kind = SourceProject) →
        (¬∃ x ∈ keyGroup [srcDupA, srcDupB] dupKey, x.kind = SourceThirdParty) →
        (∃ x ∈ keyGroup [srcDupA, srcDupB] dupKey, x.kind = SourceStdlib) →
        m.kind = SourceStdlib) :=
  ⟨by decide, dedupe_keeps_highest_precedence [srcDupA, srcDupB] dupKey (by decide)⟩

/-! ### Emptiness of the dedup output and the build gate (C6) -/

theorem dedupeSources_eq_nil_iff (sources : List PackageSource) :
    dedupeSources sources = [] ↔ sources = [] := by
  constructor
  · intro h
    by_contra hne
    by_cases hlen : sources.length ≤ 1
    · rw [dedupeSources, if_pos hlen] at h
      exact hne h
    · rw [dedupeSources, if_neg hlen] at h
      obtain ⟨s₀, hs₀⟩ := List.exists_mem_of_ne_nil sources hne
      have hkmem : srcKey s₀ ∈ (sources.foldl stepSeen []).map Prod.fst := by
        rw [mem_map_fst_foldl_stepSeen]
        exact Or.inr (List.mem_map_of_mem srcKey hs₀)
      have hsortmem :
          srcKey s₀ ∈
            List.insertionSort srcKeyLE ((sources.foldl stepSeen []).map Prod.fst) :=
        (List.mem_insertionSort srcKeyLE).mpr hkmem
      obtain ⟨v, hv⟩ : ∃ v, assocFind (srcKey s₀) (sources.foldl stepSeen []) = some v := by
        cases hf : assocFind (srcKey s₀) (sources.foldl stepSeen []) with
        | none =>
          exact absurd hkmem ((assocFind_eq_none_iff _ _).mp hf)
        | some v => exact ⟨v, rfl⟩
      have hvmem : v ∈
          (List.insertionSort srcKeyLE
              ((sources.foldl stepSeen []).map Prod.fst)).filterMap
            (fun k => assocFind k (sources.foldl stepSeen [])) :=
        List.mem_filterMap.mpr ⟨srcKey s₀, hsortmem, hv⟩
      rw [h] at hvmem
      simp at hvmem
  · rintro rfl
    rfl

theorem except_error_bind {ε α β : Type} (err : ε) (f : α → Except ε β) :
    (Except.error err >>= f) = Except.error err := rfl

theorem except_ok_bind {ε α β : Type} (a : α) (f : α → Except ε β) :
    (Except.ok a >>= f) = f a := rfl

theorem except_map_error {ε α β : Type} (err : ε) (f : α → β) :
    (Except.error err : Except ε α).map f = Except.error err := rfl

theorem except_map_ok {ε α β : Type} (a : α) (f : α → β) :
    (Except.ok a : Except ε α).map f = Except.ok (f a) := rfl

theorem except_pure_eq_ok {ε α : Type} (a : α) :
    (pure a : Except ε α) = Except.ok a := rfl

theorem inner_foldlM_error_shape (fs : GoFS) (src : PackageSource) :
    ∀ (files : List String) (acc : List Chunk) (e : BuildError),
      files.foldlM
          (fun acc file =>
            match fs.parse file with
            | none => Except.error (BuildError.fileError file)
            | some pf => Except.ok (acc ++ parseFileChunks src file pf))
          acc = .error e →
      ∃ p, e = .fileError p := by
  intro files
  induction files with
  | nil =>
    intro acc e h
    rw [List.foldlM_nil, except_pure_eq_ok] at h
    cases h
  | cons f rest ih =>
    intro acc e h
    rw [List.foldlM_cons] at h
    cases hp : fs.parse f with
    | none =>
      rw [hp] at h
      rw [show ((match (none : Option ParsedFile) with
          | none => Except.error (BuildError.fileError f)
          | some pf => Except.ok (acc ++ parseFileChunks src f pf)) :
            Except BuildError (List Chunk)) =
          Except.error (BuildError.fileError f) from rfl,
        except_error_bind] at h
      cases h
      exact ⟨f, rfl⟩
    | some pf =>
      rw [hp] at h
      rw [show ((match (some pf : Option ParsedFile) with
          | none => Except.error (BuildError.fileError f)
          | some pf => Except.ok (acc ++ parseFileChunks src f pf)) :
            Except BuildError (List Chunk)) =
          Except.ok (acc ++ parseFileChunks src f pf) from rfl,
        except_ok_bind] at h
      exact ih _ _ h

theorem buildForPackage_error_shape {fs : GoFS} {src : PackageSource}
    {e : BuildError} (h : buildForPackage fs src = .error e) :
    e ≠ .noSourcesSelected := by
  unfold buildForPackage at h
  cases hrd : fs.readDir src.dir with
  | none =>
    rw [hrd] at h
    cases h
    intro hc
    cases hc
  | some entries =>
    rw [hrd] at h
    obtain ⟨p, hp⟩ := inner_foldlM_error_shape fs src _ _ _ h
    subst hp
    intro hc
    cases hc

theorem Build_ne_noSources (fs : GoFS) (sources : List PackageSource) :
    Build fs sources ≠ .error .noSourcesSelected := by
  unfold Build
  suffices hs : ∀ (l : List PackageSource) (acc : List Chunk) (e : BuildError),
      l.foldlM (fun acc src => (buildForPackage fs src).map (fun cs => acc ++ cs)) acc
        = .error e → e ≠ .noSourcesSelected by
    intro h
    cases hf : sources.foldlM
        (fun acc src => (buildForPackage fs src).map (fun cs => acc ++ cs))
        ([] : List Chunk) with
    | error e =>
      rw [hf, except_map_error] at h
      cases h
      exact hs sources [] _ hf rfl
    | ok cs =>
      rw [hf, except_map_ok] at h
      cases h
  intro l
  induction l with
  | nil =>
    intro acc e h
    rw [List.foldlM_nil, except_pure_eq_ok] at h
    cases h
  | cons x rest ih =>
    intro acc e h
    rw [List.foldlM_cons] at h
    cases hb : buildForPackage fs x with
    | error e' =>
      rw [hb, except_map_error, except_error_bind] at h
      cases h
      exact buildForPackage_error_shape hb
    | ok cs =>
      rw [hb, except_map_ok, except_ok_bind] at h
      exact ih _ _ h

/-- C6.  The build run fails with the no-sources-selected error exactly when
selection plus deduplication yields zero package sources; in that case the
error is raised by the gate itself, before the extractor runs, and `Build`
can never produce this error. -/
theorem runBuildGate_noSources_iff (fs : GoFS) (sources : List PackageSource) :
    runBuildGate fs sources = .error .noSourcesSelected ↔
      dedupeSources sources = [] := by
  unfold runBuildGate
  by_cases h : sources.isEmpty
  · have hnil : sources = [] := by simpa using h
    subst hnil
    simp [dedupeSources]
  · rw [if_neg h]
    have hne : sources ≠ [] := by simpa using h
    constructor
    · intro hb
      exact absurd hb (Build_ne_noSources fs (dedupeSources sources))
    · intro hdnil
      exact absurd ((dedupeSources_eq_nil_iff sources).mp hdnil) hne

/-! ### Idempotence of deduplication (C7) -/

theorem foldl_stepSeen_of_nodup :
    ∀ (l : List PackageSource) (seen : List (SrcKey × PackageSource)),
      (seen.map Prod.fst ++ l.map srcKey).Nodup →
      l.foldl stepSeen seen = seen ++ l.map (fun v => (srcKey v, v)) := by
  intro l
  induction l with
  | nil =>
    intro seen _
    simp
  | cons x xs ih =>
    intro seen hnd
    have hnotin : srcKey x ∉ seen.map Prod.fst := by
      intro hmem
      have := List.disjoint_of_nodup_append hnd
      exact this hmem (by simp)
    have hfind : assocFind (srcKey x) seen = none :=
      (assocFind_eq_none_iff _ _).mpr hnotin
    have hstep : stepSeen seen x = seen ++ [(srcKey x, x)] := by
      unfold stepSeen
      simp only [hfind]
      exact assocSet_of_not_mem _ hnotin
    rw [List.foldl_cons, hstep, ih]
    · simp
    · have : (seen ++ [(srcKey x, x)]).map Prod.fst ++ xs.map srcKey =
          seen.map Prod.fst ++ (srcKey x :: xs.map srcKey) := by
        simp
      rw [this]
      simpa using hnd

theorem map_srcKey_filterMap_assocFind
    {seen : List (SrcKey × PackageSource)}
    (hkeyed : ∀ kv ∈ seen, srcKey kv.2 = kv.1) :
    ∀ {ks : List SrcKey}, (∀ k ∈ ks, ∃ v, assocFind k seen = some v) →
      (ks.filterMap (fun k' => assocFind k' seen)).map srcKey = ks := by
  intro ks
  induction ks with
  | nil => intro _; simp
  | cons k0 rest ih =>
    intro hall
    obtain ⟨v0, hv0⟩ := hall k0 (List.mem_cons_self _ _)
    rw [List.filterMap_cons, hv0, List.map_cons]
    rw [ih (fun k hk => hall k (List.mem_cons_of_mem _ hk))]
    rw [hkeyed _ (assocFind_mem hv0)]

theorem filterMap_assocFind_map_pair :
    ∀ (d : List PackageSource), (d.map srcKey).Nodup →
      (d.map srcKey).filterMap
        (fun k => assocFind k (d.map (fun v => (srcKey v, v)))) = d := by
  intro d
  induction d with
  | nil => intro _; simp
  | cons x xs ih =>
    intro hnd
    rw [List.map_cons] at hnd
    have hnotin : srcKey x ∉ xs.map srcKey := (List.nodup_cons.mp hnd).1
    have hhd : assocFind (srcKey x)
        ((srcKey x, x) :: xs.map (fun v => (srcKey v, v))) = some x := by
      simp [assocFind]
    simp only [List.map_cons]
    rw [List.filterMap_cons, hhd]
    have hcongr : (xs.map srcKey).filterMap
        (fun k => assocFind k ((srcKey x, x) :: xs.map (fun v => (srcKey v, v)))) =
        (xs.map srcKey).filterMap
          (fun k => assocFind k (xs.map (fun v => (srcKey v, v)))) := by
      apply List.filterMap_congr
      intro k hk
      have hne : srcKey x ≠ k := by
        intro he
        exact hnotin (he ▸ hk)
      simp [assocFind, hne]
    rw [hcongr, ih (List.nodup_cons.mp hnd).2]

/-- C7.  Deduplication is idempotent: applying `dedupeSources` to its own
output returns the output unchanged (same elements, same order). -/
theorem dedupeSources_idempotent (sources : List PackageSource) :
    dedupeSources (dedupeSources sources) = dedupeSources sources := by
  by_cases hlen : sources.length ≤ 1
  · have h : dedupeSources sources = sources := by
      rw [dedupeSources, if_pos hlen]
    rw [h, h]
  · have hd : dedupeSources sources =
        (List.insertionSort srcKeyLE ((sources.foldl stepSeen []).map Prod.fst)).filterMap
          (fun k => assocFind k (sources.foldl stepSeen [])) := by
      rw [dedupeSources, if_neg hlen]
    have hkeyed : ∀ kv ∈ sources.foldl stepSeen [], srcKey kv.2 = kv.1 :=
      keyed_foldl_stepSeen sources [] (by simp)
    have hknd : ((sources.foldl stepSeen []).map Prod.fst).Nodup :=
      nodup_map_fst_foldl_stepSeen sources [] (by simp)
    have hsortnd :
        (List.insertionSort srcKeyLE
          ((sources.foldl stepSeen []).map Prod.fst)).Nodup :=
      (List.perm_insertionSort srcKeyLE _).nodup_iff.mpr hknd
    have hsorted :
        List.Sorted srcKeyLE
          (List.insertionSort srcKeyLE ((sources.foldl stepSeen []).map Prod.fst)) :=
      List.sorted_insertionSort srcKeyLE _
    have hfound : ∀ k ∈ List.insertionSort srcKeyLE
        ((sources.foldl stepSeen []).map Prod.fst),
        ∃ v, assocFind k (sources.foldl stepSeen []) = some v := by
      intro k hk
      have hkm : k ∈ (sources.foldl stepSeen []).map Prod.fst :=
        (List.mem_insertionSort srcKeyLE).mp hk
      cases hf : assocFind k (sources.foldl stepSeen []) with
      | none => exact absurd hkm ((assocFind_eq_none_iff _ _).mp hf)
      | some v => exact ⟨v, rfl⟩
    have hdkeys : (dedupeSources sources).map srcKey =
        List.insertionSort srcKeyLE ((sources.foldl stepSeen []).map Prod.fst) := by
      rw [hd]
      exact map_srcKey_filterMap_assocFind hkeyed hfound
    have hdnd : ((dedupeSources sources).map srcKey).Nodup := by
      rw [hdkeys]; exact hsortnd
    have hdsorted : List.Sorted srcKeyLE ((dedupeSources sources).map srcKey) := by
      rw [hdkeys]; exact hsorted
    by_cases hlen2 : (dedupeSources sources).length ≤ 1
    · rw [dedupeSources, if_pos hlen2]
    · rw [dedupeSources, if_neg hlen2]
      have hseen2 : (dedupeSources sources).foldl stepSeen [] =
          (dedupeSources sources).map (fun v => (srcKey v, v)) := by
        have := foldl_stepSeen_of_nodup (dedupeSources sources) []
          (by simpa using hdnd)
        simpa using this
      have hkeys2 : ((dedupeSources sources).map
          (fun v => (srcKey v, v))).map Prod.fst =
          (dedupeSources sources).map srcKey := by
        rw [List.map_map]
        rfl
      show (List.insertionSort srcKeyLE
          (((dedupeSources sources).foldl stepSeen []).map Prod.fst)).filterMap
          (fun k => assocFind k ((dedupeSources sources).foldl stepSeen [])) =
        dedupeSources sources
      rw [hseen2, hkeys2, List.Sorted.insertionSort_eq hdsorted]
      exact filterMap_assocFind_map_pair _ hdnd

/-! ### Extractor claims: sort order, determinism, ids, value-spec grouping -/

/-- C3.  Whenever `Build` succeeds, the returned chunk list is sorted in
non-decreasing lexicographic order by `(modulePath, relativePath, id)`,
whatever the input sources were. -/
theorem Build_sorted (fs : GoFS) (sources : List PackageSource)
    (chunks : List Chunk) (h : Build fs sources = .ok chunks) :
    List.Sorted chunkLE chunks := by
  unfold Build at h
  cases hf : sources.foldlM
      (fun acc src => (buildForPackage fs src).map (fun cs => acc ++ cs))
      ([] : List Chunk) with
  | error e =>
    rw [hf, except_map_error] at h
    cases h
  | ok all =>
    rw [hf, except_map_ok] at h
    cases h
    exact List.sorted_insertionSort chunkLE all

/-- The parsed file used in concrete scenarios: package `p` with two method
declarations both named `Close`, on receiver types `A` and `B`. -/
def parsedClose : ParsedFile :=
  { content := "func1 func2".toList
    ast :=
      { pkgName := "p"
        doc := none
        decls :=
          [Decl.funcDecl ⟨"Close", some [⟨["a"], "A"⟩], none, 0, 5⟩,
           Decl.funcDecl ⟨"Close", some [⟨["b"], "B"⟩], none, 6, 11⟩] } }

/-- A concrete filesystem containing exactly the file `/m/p/f.go`. -/
def fsClose : GoFS :=
  { readDir := fun d => if d = "/m/p" then some [⟨"f.go", false⟩] else none
    parse := fun p => if p = "/m/p/f.go" then some parsedClose else none }

/-- The package source whose directory holds `f.go`. -/
def srcClose : PackageSource :=
  ⟨"m", "", "/m", "m/p", "/m/p", SourceProject⟩

/-- Witness for C3 at a concrete filesystem with one real file. -/
theorem Build_sorted_witness :
    List.Sorted chunkLE ((Build fsClose [srcClose]).toOption.getD []) :=
  Build_sorted fsClose [srcClose]
    ((Build fsClose [srcClose]).toOption.getD []) (by rfl)

/-- C8.  Extraction is deterministic: two runs of `Build` over the same
source list and filesystems that agree on every directory listing and every
parse result produce identical output.  The pipeline is single-threaded and
the final sort breaks ties the same way on both runs. -/
theorem Build_deterministic (fs fs' : GoFS) (sources : List PackageSource)
    (h1 : ∀ d, fs.readDir d = fs'.readDir d)
    (h2 : ∀ p, fs.parse p = fs'.parse p) :
    Build fs sources = Build fs' sources := by
  have heq : fs = fs' := by
    cases fs
    cases fs'
    simp only [GoFS.mk.injEq]
    exact ⟨funext h1, funext h2⟩
  rw [heq]

/-- Witness for C8: a second run over the concrete filesystem reproduces the
first run's output. -/
theorem Build_deterministic_witness :
    Build fsClose [srcClose] = Build fsClose [srcClose] :=
  Build_deterministic fsClose fsClose [srcClose] (fun _ => rfl) (fun _ => rfl)

/-- C2 failing input.  Two method declarations in the same file that share
the name `Close` but have different receiver types produce two chunks with
the same id `p/f.go:Close` (the receiver is part of the symbol but not of
the id), so chunk ids are not unique. -/
theorem chunk_id_collision :
    ∃ c1 c2, parseFileChunks srcClose "/m/p/f.go" parsedClose = [c1, c2] ∧
      c1.id = c2.id ∧ c1.metadata.symbol ≠ c2.metadata.symbol :=
  ⟨_, _, rfl, by decide, by decide⟩

/-- The chunk built by `buildGenChunks` for one value/constant specifier
with a non-empty name list. -/
def valueChunk (src : PackageSource) (path pkg : String) (content : List Char)
    (tok : GTok) (gdoc sdoc : Option String) (names : List String)
    (p e : Nat) : Chunk :=
  let snippet := extractSnippet content p e
  let doc := gatherDoc [gdoc, sdoc]
  let text := (if doc ≠ "" then doc ++ "\n\n" else "") ++ snippet
  let low := lowerString (gtokString tok)
  { id := path ++ ":" ++ low ++ ":" ++ String.intercalate "," names
    text := text
    metadata :=
      { path := path, packageName := pkg, importPath := src.importPath
        modulePath := src.modulePath, moduleVersion := src.moduleVersion
        symbol := low ++ " " ++ String.intercalate ", " names
        kind := low, source := src.kind } }

theorem genSpecChunks_valueSpec (src : PackageSource) (path pkg : String)
    (content : List Char) (tok : GTok) (gdoc sdoc : Option String)
    (names : List String) (p e : Nat) :
    genSpecChunks src path pkg content tok gdoc (.valueSpec names sdoc p e) =
      if names.isEmpty then []
      else [valueChunk src path pkg content tok gdoc sdoc names p e] := by
  cases names <;> rfl

theorem buildGenChunks_eq_flatMap (src : PackageSource) (path pkg : String)
    (content : List Char) (decl : GenDeclData) :
    buildGenChunks src path pkg content decl =
      decl.specs.flatMap (genSpecChunks src path pkg content decl.tok decl.doc) := by
  unfold buildGenChunks
  cases h : decl.specs <;> simp [h]

/-- C5.  Inside any grouped declaration, a value/constant specifier with a
non-empty name list contributes exactly one chunk — placed between the
chunks of the surrounding specifiers — whose id joins the relative path,
the lowercased kind token, and the comma-joined name list; a specifier with
no names contributes no chunk at all. -/
theorem value_spec_grouping (src : PackageSource) (path pkg : String)
    (content : List Char) (tok : GTok) (gdoc : Option String)
    (pre post : List Spec) (names : List String) (sdoc : Option String)
    (p e : Nat) :
    buildGenChunks src path pkg content
        ⟨tok, gdoc, pre ++ Spec.valueSpec names sdoc p e :: post⟩ =
      buildGenChunks src path pkg content ⟨tok, gdoc, pre⟩ ++
        (if names.isEmpty then []
         else [valueChunk src path pkg content tok gdoc sdoc names p e]) ++
        buildGenChunks src path pkg content ⟨tok, gdoc, post⟩ ∧
    (valueChunk src path pkg content tok gdoc sdoc names p e).id =
      path ++ ":" ++ lowerString (gtokString tok) ++ ":" ++
        String.intercalate "," names := by
  constructor
  · rw [buildGenChunks_eq_flatMap, buildGenChunks_eq_flatMap,
      buildGenChunks_eq_flatMap]
    simp only [List.flatMap_append, List.flatMap_cons]
    rw [genSpecChunks_valueSpec]
    simp [List.append_assoc]
  · rfl

/-! ### Chunk metadata paths (C9) -/

theorem genSpecChunks_path (src : PackageSource) (path pkg : String)
    (content : List Char) (tok : GTok) (gdoc : Option String) (sp : Spec)
    (c : Chunk) (hc : c ∈ genSpecChunks src path pkg content tok gdoc sp) :
    c.metadata.path = path := by
  cases sp with
  | typeSpec name sdoc p e =>
    simp only [genSpecChunks, List.mem_singleton] at hc
    rw [hc]
  | valueSpec names sdoc p e =>
    rw [genSpecChunks_valueSpec] at hc
    by_cases hn : names.isEmpty
    · rw [if_pos hn] at hc
      simp at hc
    · rw [if_neg hn] at hc
      simp only [List.mem_singleton] at hc
      rw [hc]
      rfl
  | importSpec =>
    simp [genSpecChunks] at hc

/-- C9 counterexample.  The original claim — every emitted chunk's metadata
path is the slash-normalized result of making the file path relative to the
module root — fails: with a module directory relative to which the file path
cannot be resolved (`filepath.Rel` errors), a chunk is still emitted, and its
path falls back to the unmodified file path. -/
theorem chunk_path_not_always_relative :
    ¬(∀ (src : PackageSource) (filePath : String) (pf : ParsedFile),
        ∀ c ∈ parseFileChunks src filePath pf,
        ∃ rel, goRel src.moduleDir filePath = some rel ∧
          c.metadata.path = goToSlash rel) := by
  intro h
  obtain ⟨rel, hrel, _⟩ :=
    h ⟨"m", "", "a", "m/p", "/m/p", SourceProject⟩ "/m/p/f.go" parsedClose
      ⟨"/m/p/f.go:Close", "func1",
        ⟨"/m/p/f.go", "p", "m/p", "m", "", "func (a A) Close", "function",
          "project"⟩⟩ (by decide)
  rw [show goRel (PackageSource.moduleDir ⟨"m", "", "a", "m/p", "/m/p", SourceProject⟩)
      "/m/p/f.go" = none from rfl] at hrel
  cases hrel

/-- C9 amended.  Every chunk emitted for a file carries as its metadata path
`relativePath(moduleDir, filePath)`: the slash-normalized `filepath.Rel`
result when the module directory is non-empty and `Rel` succeeds, and the
unmodified file path as a fallback when the module directory is empty or
`Rel` fails. -/
theorem chunk_path_is_relativePath (src : PackageSource) (filePath : String)
    (pf : ParsedFile) (c : Chunk)
    (hc : c ∈ parseFileChunks src filePath pf) :
    c.metadata.path =
      (if src.moduleDir = "" then filePath
       else
        match goRel src.moduleDir filePath with
        | none => filePath
        | some rel => goToSlash rel) := by
  have hrel : (if src.moduleDir = "" then filePath
      else
        match goRel src.moduleDir filePath with
        | none => filePath
        | some rel => goToSlash rel) = relativePath src.moduleDir filePath := rfl
  rw [hrel]
  simp only [parseFileChunks] at hc
  rw [List.mem_append] at hc
  rcases hc with hc | hc
  · by_cases hdoc : commentText pf.ast.doc ≠ ""
    · rw [if_pos hdoc] at hc
      by_cases htrim : goTrimSpace (commentText pf.ast.doc) ≠ ""
      · rw [if_pos htrim] at hc
        simp only [List.mem_singleton] at hc
        rw [hc]
      · rw [if_neg htrim] at hc
        simp at hc
    · rw [if_neg hdoc] at hc
      simp at hc
  · obtain ⟨d, _, hcd⟩ := List.mem_flatMap.mp hc
    cases d with
    | funcDecl fd =>
      simp only [List.mem_singleton] at hcd
      rw [hcd]
      rfl
    | genDecl gd =>
      dsimp only at hcd
      rw [buildGenChunks_eq_flatMap] at hcd
      obtain ⟨sp, _, hcs⟩ := List.mem_flatMap.mp hcd
      exact genSpecChunks_path _ _ _ _ _ _ _ _ hcs
    | otherDecl =>
      simp at hcd

/-- Witness for the amended C9 at the concrete file: the first `Close`
chunk's path is `p/f.go`, the `Rel`-computed relative path. -/
theorem chunk_path_is_relativePath_witness :
    (⟨"p/f.go:Close", "func1",
        ⟨"p/f.go", "p", "m/p", "m", "", "func (a A) Close", "function",
          "project"⟩⟩ : Chunk).metadata.path =
      (if srcClose.moduleDir = "" then "/m/p/f.go"
       else
        match goRel srcClose.moduleDir "/m/p/f.go" with
        | none => "/m/p/f.go"
        | some rel => goToSlash rel) :=
  chunk_path_is_relativePath srcClose "/m/p/f.go" parsedClose _ (by decide)

/-! ### Module replacement directories (C4) -/

theorem GoModule.dir_withDir (m : GoModule) (d : String) :
    (m.withDir d).dir = d := by
  cases m
  rfl

/-- A concrete decoded module whose replacement has an empty directory. -/
def modEmptyRep : GoModule :=
  .mk "x" "v1" "orig" "" false (some (.mk "r" "" "" "" false none false)) false

/-- A concrete decoded module whose replacement has directory `rdir`. -/
def modFullRep : GoModule :=
  .mk "y" "v2" "own" "" false (some (.mk "r" "" "rdir" "" false none false)) false

/-- C4 counterexample.  The claim that a decoded module carrying a
replacement always resolves its directory to the replacement's directory is
false: when the replacement's directory is empty, the module keeps its own
directory. -/
theorem replace_dir_claim_false :
    ¬(∀ (m rep : GoModule), m.replace = some rep →
        (applyReplaceDir m).dir = rep.dir) := by
  intro h
  have hdir := h modEmptyRep (.mk "r" "" "" "" false none false) rfl
  rw [show (applyReplaceDir modEmptyRep).dir = "orig" from rfl] at hdir
  exact absurd hdir (by decide)

/-- C4 amended.  During module decoding, a module carrying a replacement
takes the replacement's directory exactly when that directory is non-empty;
a replacement with an empty directory leaves the module's own directory
unchanged. -/
theorem applyReplaceDir_spec (m rep : GoModule) (h : m.replace = some rep) :
    (rep.dir ≠ "" → (applyReplaceDir m).dir = rep.dir) ∧
    (rep.dir = "" → (applyReplaceDir m).dir = m.dir) := by
  unfold applyReplaceDir
  rw [h]
  dsimp only
  by_cases hd : rep.dir = ""
  · rw [if_neg (by simpa using hd)]
    exact ⟨fun hne => absurd hd hne, fun _ => rfl⟩
  · rw [if_pos (by simpa using hd)]
    exact ⟨fun _ => GoModule.dir_withDir m rep.dir, fun he => absurd he hd⟩

/-- Witness for the amended C4: a non-empty replacement directory replaces
the module's own, and an empty one does not. -/
theorem applyReplaceDir_spec_witness :
    (applyReplaceDir modFullRep).dir = "rdir" ∧
    (applyReplaceDir modEmptyRep).dir = "orig" :=
  ⟨(applyReplaceDir_spec modFullRep (.mk "r" "" "rdir" "" false none false)
      rfl).1 (by decide),
   (applyReplaceDir_spec modEmptyRep (.mk "r" "" "" "" false none false)
      rfl).2 rfl⟩

/-! ### Third-party grouping keeps only module-attributed packages (C10) -/

theorem foldl_tpStep_attributed (moduleByPath : List (String × GoModule))
    (mainPath : String) :
    ∀ (depPkgs : List GoPackage) (third : List (String × TPEntry)),
      (∀ ent ∈ third, ∀ kp ∈ ent.2.packages, (kp.2).module ≠ none) →
      ∀ ent ∈ depPkgs.foldl (tpStep moduleByPath mainPath) third,
        ∀ kp ∈ ent.2.packages, (kp.2).module ≠ none := by
  intro depPkgs
  induction depPkgs with
  | nil => intro third hinv; exact hinv
  | cons p rest ih =>
    intro third hinv
    rw [List.foldl_cons]
    refine ih _ ?_
    intro ent hent kp hkp
    unfold tpStep at hent
    by_cases hstd : p.standard
    · rw [if_pos hstd] at hent
      exact hinv ent hent kp hkp
    · rw [if_neg hstd] at hent
      cases hpm : p.module with
      | none =>
        rw [hpm] at hent
        dsimp only at hent
        exact hinv ent hent kp hkp
      | some pm =>
        rw [hpm] at hent
        dsimp only at hent
        by_cases hmain : pm.path = mainPath
        · rw [if_pos hmain] at hent
          exact hinv ent hent kp hkp
        · rw [if_neg hmain] at hent
          revert hent
          cases hfind : assocFind (tpMod moduleByPath pm).path third with
          | some ent0 =>
            intro hent
            rcases mem_assocSet hent with he | he
            · have hps : ent.2.packages =
                  assocSet p.importPath p ent0.packages := by
                rw [he]
              rw [hps] at hkp
              rcases mem_assocSet hkp with hk | hk
              · rw [hk]
                simp [hpm]
              · exact hinv (_, ent0) (assocFind_mem hfind) kp hk
            · exact hinv ent he kp hkp
          | none =>
            intro hent
            rcases List.mem_append.mp hent with he | he
            · exact hinv ent he kp hkp
            · simp only [List.mem_singleton] at he
              rw [he] at hkp
              simp only [List.mem_singleton] at hkp
              rw [hkp]
              simp [hpm]

/-- C10.  Every `ModuleUsage` built by `collectThirdParty` contains only
dependency packages that carry a module attribution: a package whose
`Module` back-pointer is nil is skipped by the grouping loop and can never
reach a usage (and hence never becomes a third-party `PackageSource`). -/
theorem collectThirdParty_modules_attributed (depPkgs : List GoPackage)
    (moduleByPath : List (String × GoModule)) (mainPath : String)
    (mu : ModuleUsage) (hmu : mu ∈ collectThirdParty depPkgs moduleByPath mainPath)
    (p : GoPackage) (hp : p ∈ mu.packages) : p.module ≠ none := by
  unfold collectThirdParty at hmu
  obtain ⟨path, hpath, hfind⟩ := List.mem_filterMap.mp hmu
  cases hf : assocFind path (depPkgs.foldl (tpStep moduleByPath mainPath) []) with
  | none =>
    rw [hf] at hfind
    cases hfind
  | some ent =>
    rw [hf] at hfind
    simp only [Option.map_some'] at hfind
    have hmu2 := Option.some.inj hfind
    have hpkgs : mu.packages =
        List.insertionSort pkgLE (ent.packages.map Prod.snd) := by
      rw [← hmu2]
    rw [hpkgs] at hp
    have hp2 : p ∈ ent.packages.map Prod.snd :=
      (List.mem_insertionSort pkgLE).mp hp
    obtain ⟨kp, hkp, hkp2⟩ := List.mem_map.mp hp2
    have := foldl_tpStep_attributed moduleByPath mainPath depPkgs []
      (by simp) (path, ent) (assocFind_mem hf) kp hkp
    exact hkp2 ▸ this

/-- A concrete attributed third-party module and package for the witness. -/
def modThird : GoModule := .mk "dep" "v1" "/dep" "" false none false

/-- A dependency package attributed to `modThird`. -/
def pkgAttr : GoPackage :=
  ⟨"dep/pkg", "/dep/pkg", "pkg", some modThird, false, true⟩

/-- The usage `collectThirdParty` builds from `pkgAttr` alone. -/
def muAttr : ModuleUsage := ⟨modThird, [pkgAttr]⟩

/-- Witness for C10 at a concrete one-package dependency closure. -/
theorem collectThirdParty_modules_attributed_witness :
    pkgAttr.module ≠ none := by
  have hmu : muAttr ∈ collectThirdParty [pkgAttr] [] "main" := by
    have h : collectThirdParty [pkgAttr] [] "main" = [muAttr] := rfl
    rw [h]
    exact List.mem_singleton.mpr rfl
  have hp : pkgAttr ∈ muAttr.packages := List.mem_singleton.mpr rfl
  exact collectThirdParty_modules_attributed [pkgAttr] [] "main" muAttr hmu
    pkgAttr hp
